import Mathlib

/-!
Verification of the `rr` block-copy utility (src/main.rs).

The program copies a source file to a destination file in fixed-size blocks
(`writer_thread`), publishes progress snapshots over a channel, and after the
copy estimates flush progress from the kernel dirty-page counter (`_main`).

Embedding conventions:
* file contents are `List Nat` (one element per byte);
* `source.read(&mut buf)` on a regular file reads
  `min block_size (len - pos)` bytes into the front of the buffer, leaving the
  rest of the buffer unchanged (the standard full-read model for regular
  files), and returns that count;
* `target.write(&mut buf)` writes the entire buffer at the current destination
  offset (the code passes the whole buffer and ignores the returned count;
  partial writes are not modelled);
* `usize` values are `Nat`; `usize::max_value()` is `USIZE_MAX`; checked
  subtraction that would underflow (a Rust overflow panic) is `none`;
* wall-clock timing (the 500 ms snapshot timer, line 149) is abstracted by an
  oracle `fire : Nat → Bool` telling, per loop iteration, whether more than
  500 ms elapsed since the last emission;
* `target.sync_data()` (line 155) has no observable effect in the model; the
  sends around it (lines 154 and 156) are kept in order.
-/

/-- The value of `usize::max_value()` used at line 138 when no `--count` is given. -/
def USIZE_MAX : Nat := 2 ^ 64 - 1

/-- Total expected bytes, computed once at startup (lines 43-49):
`count * block_size` when a count is given, otherwise the source length. -/
def totalExpected (count : Option Nat) (blockSize srcLen : Nat) : Nat :=
  match count with
  | some c => c * blockSize
  | none => srcLen

/-- Overwrite `bs` into `d` starting at offset `p` (a positional file write;
the file grows when the write reaches past its end). -/
def writeAt (d : List Nat) (p : Nat) (bs : List Nat) : List Nat :=
  d.take p ++ bs ++ d.drop (p + bs.length)

/-- Observable outcome of `writer_thread`: final destination content, the final
value of the `written` counter, the traces of read return values and of the
buffers passed to `write`, and the snapshots sent by the 500 ms timer. -/
structure CopyOut where
  dest : List Nat
  written : Nat
  reads : List Nat
  writes : List (List Nat)
  timedSent : List Nat
  deriving Repr, DecidableEq

/-- Everything sent on the channel, in order: the timed snapshots from inside
the loop (lines 149-152), then the unconditional final snapshot `written`
(line 154) and the sentinel `0` (line 156). -/
def CopyOut.sent (o : CopyOut) : List Nat :=
  o.timedSent ++ [o.written, 0]

/-- The loop of `writer_thread` (lines 138-153), translated statement by
statement.  State: remaining `count` budget, last `read` value, the reusable
buffer, the `written` counter, the source offset, the destination offset, the
iteration index (feeding the timer oracle), and the destination content.
The loop body reads `min B (srcLen - srcPos)` bytes into the front of the
buffer, writes the WHOLE buffer (line 145 passes `&mut buf`, not a slice),
adds the read count to `written`, decrements `count`, and possibly sends
`written`.  The loop exits when `read = 0` or the budget hits zero. -/
def copyLoop (src : List Nat) (B : Nat) (fire : Nat → Bool) :
    (count read : Nat) → (buf : List Nat) → (written srcPos destPos iter : Nat) →
    (dest : List Nat) → CopyOut
  | 0, _read, _buf, written, _srcPos, _destPos, _iter, dest =>
      { dest := dest, written := written, reads := [], writes := [], timedSent := [] }
  | count + 1, read, buf, written, srcPos, destPos, iter, dest =>
      if read = 0 then
        { dest := dest, written := written, reads := [], writes := [], timedSent := [] }
      else
        let r := min B (src.length - srcPos)
        let buf' := (src.drop srcPos).take B ++ buf.drop r
        let out := copyLoop src B fire count r buf' (written + r) (srcPos + r)
          (destPos + B) (iter + 1) (writeAt dest destPos buf')
        { dest := out.dest
          written := out.written
          reads := r :: out.reads
          writes := buf' :: out.writes
          timedSent := if fire iter then (written + r) :: out.timedSent else out.timedSent }

/-- One full run of `writer_thread`: `count` defaults to `usize::max_value()`
(line 138), `written` starts at 0 (line 139), the buffer is `vec![0; block_size]`
(line 140), `read` starts at 1 (line 142), both file offsets start at 0, and
`dest0` is whatever the destination file held when it was opened
(write + create, no truncate, lines 60-65). -/
def copyRun (src : List Nat) (B : Nat) (count : Option Nat) (fire : Nat → Bool)
    (dest0 : List Nat) : CopyOut :=
  copyLoop src B fire (count.getD USIZE_MAX) 1 (List.replicate B 0) 0 0 0 0 dest0

/-- A timer oracle that never fires (a run faster than the 500 ms threshold). -/
def noFire : Nat → Bool := fun _ => false

/-- Flush-phase progress for one poll (line 117): `total - dirty * 1000` on
`usize`, where `dirty` is the parsed kilobyte value from the Dirty line of
/proc/meminfo.  The subtraction is unguarded; underflow is a Rust overflow
panic (abort), modelled as `none`. -/
def flushProgress (total dirty : Nat) : Option Nat :=
  if dirty * 1000 ≤ total then some (total - dirty * 1000) else none

/-- Percentage as printed by the progress reporter (lines 81 and 121):
`floor((value / total) * 100)` computed in 32-bit floating point.  For
`total ≠ 0` this is the rational floor, i.e. `value * 100 / total` in `Nat`
(f32 rounding error on huge values is not modelled; the claims use this
definition only near 0).  For `total = 0` the code computes `0.0 / 0.0 = NaN`,
whose floor prints as `NaN`: there is no special case in the code, modelled
as `none`. -/
def renderPercent (value total : Nat) : Option Nat :=
  if total = 0 then none else some (value * 100 / total)

/-- Observable actions of `_main` up to the point where the copier is spawned. -/
inductive Effect where
  | printAbortMsg
  | exitProc (code : Nat)
  | openSource
  | openTarget
  deriving Repr, DecidableEq

/-- The pre-copy part of `_main` (lines 51-65): if metadata of the output path
is available and says it is a directory, print the abort message and call
`std::process::exit(0)`; otherwise open the source for reading and the target
with write + create. -/
def driverPrelude (outputExists outputIsDir : Bool) : List Effect :=
  if outputExists && outputIsDir then
    [Effect.printAbortMsg, Effect.exitProc 0]
  else
    [Effect.openSource, Effect.openTarget]

/-- Read-trace of the loop as a standalone recursion: the sequence of values
returned by `source.read` over the iterations, starting from budget `count`,
previous read value `read` and source offset `srcPos`. -/
def readTrace (src : List Nat) (B : Nat) : Nat → Nat → Nat → List Nat
  | 0, _read, _srcPos => []
  | count + 1, read, srcPos =>
    if read = 0 then []
    else min B (src.length - srcPos) ::
      readTrace src B count (min B (src.length - srcPos))
        (srcPos + min B (src.length - srcPos))

/-- Write-trace of the loop as a standalone recursion: the sequence of buffer
contents passed to `target.write` over the iterations. -/
def writeTrace (src : List Nat) (B : Nat) :
    Nat → Nat → List Nat → Nat → List (List Nat)
  | 0, _read, _buf, _srcPos => []
  | count + 1, read, buf, srcPos =>
    if read = 0 then []
    else ((src.drop srcPos).take B ++ buf.drop (min B (src.length - srcPos))) ::
      writeTrace src B count (min B (src.length - srcPos))
        ((src.drop srcPos).take B ++ buf.drop (min B (src.length - srcPos)))
        (srcPos + min B (src.length - srcPos))

theorem copyLoop_reads (src : List Nat) (B : Nat) (fire : Nat → Bool) :
    ∀ (c read : Nat) (buf : List Nat) (w s p i : Nat) (d : List Nat),
      (copyLoop src B fire c read buf w s p i d).reads = readTrace src B c read s := by
  intro c
  induction c with
  | zero => intros; rfl
  | succ c ih =>
    intro read buf w s p i d
    by_cases h : read = 0
    · simp [copyLoop, readTrace, h]
    · simp [copyLoop, readTrace, h, ih]

theorem copyLoop_writes (src : List Nat) (B : Nat) (fire : Nat → Bool) :
    ∀ (c read : Nat) (buf : List Nat) (w s p i : Nat) (d : List Nat),
      (copyLoop src B fire c read buf w s p i d).writes = writeTrace src B c read buf s := by
  intro c
  induction c with
  | zero => intros; rfl
  | succ c ih =>
    intro read buf w s p i d
    by_cases h : read = 0
    · simp [copyLoop, writeTrace, h]
    · simp [copyLoop, writeTrace, h, ih]

theorem copyLoop_written (src : List Nat) (B : Nat) (fire : Nat → Bool) :
    ∀ (c read : Nat) (buf : List Nat) (w s p i : Nat) (d : List Nat),
      (copyLoop src B fire c read buf w s p i d).written
        = w + (readTrace src B c read s).sum := by
  intro c
  induction c with
  | zero => intros; simp [copyLoop, readTrace]
  | succ c ih =>
    intro read buf w s p i d
    by_cases h : read = 0
    · simp [copyLoop, readTrace, h]
    · simp [copyLoop, readTrace, h, ih]
      omega

theorem writeTrace_mem_length (src : List Nat) (B : Nat) :
    ∀ (c read : Nat) (buf : List Nat) (s : Nat), buf.length = B →
      ∀ bs ∈ writeTrace src B c read buf s, bs.length = B := by
  intro c
  induction c with
  | zero => intro read buf s hbuf bs hbs; simp [writeTrace] at hbs
  | succ c ih =>
    intro read buf s hbuf bs hbs
    by_cases h : read = 0
    · simp [writeTrace, h] at hbs
    · have hbuf' : (((src.drop s).take B) ++ buf.drop (min B (src.length - s))).length = B := by
        rw [List.length_append, List.length_take, List.length_drop, List.length_drop, hbuf]
        omega
      simp only [writeTrace, h, if_false, List.mem_cons] at hbs
      rcases hbs with hbs | hbs
      · rw [hbs]; exact hbuf'
      · exact ih _ _ _ hbuf' bs hbs

theorem flatten_length_of_uniform (B : Nat) :
    ∀ (L : List (List Nat)), (∀ bs ∈ L, bs.length = B) →
      (L.flatten).length = B * L.length := by
  intro L
  induction L with
  | nil => intro _; simp
  | cons a l ihl =>
    intro hmem
    have ha : a.length = B := hmem a (by simp)
    have hrest : ∀ bs ∈ l, bs.length = B := fun bs hbs => hmem bs (by simp [hbs])
    simp only [List.flatten_cons, List.length_append, ha, List.length_cons, ihl hrest]
    ring

theorem writeTrace_flatten_length (src : List Nat) (B : Nat) (c read : Nat)
    (buf : List Nat) (s : Nat) (hbuf : buf.length = B) :
    ((writeTrace src B c read buf s).flatten).length
      = B * (writeTrace src B c read buf s).length :=
  flatten_length_of_uniform B _ (writeTrace_mem_length src B c read buf s hbuf)

theorem copyLoop_dest (src : List Nat) (B : Nat) (fire : Nat → Bool) :
    ∀ (c read : Nat) (buf : List Nat) (w s p i : Nat) (d : List Nat),
      buf.length = B → p ≤ d.length →
      (copyLoop src B fire c read buf w s p i d).dest
        = d.take p ++ (writeTrace src B c read buf s).flatten
            ++ d.drop (p + ((writeTrace src B c read buf s).flatten).length) := by
  intro c
  induction c with
  | zero =>
    intro read buf w s p i d hbuf hp
    simp [copyLoop, writeTrace]
  | succ c ih =>
    intro read buf w s p i d hbuf hp
    by_cases h : read = 0
    · simp [copyLoop, writeTrace, h]
    · have hbuf' : (((src.drop s).take B) ++ buf.drop (min B (src.length - s))).length = B := by
        rw [List.length_append, List.length_take, List.length_drop, List.length_drop, hbuf]
        omega
      have hsplit : writeAt d p (((src.drop s).take B) ++ buf.drop (min B (src.length - s)))
          = (d.take p ++ (((src.drop s).take B) ++ buf.drop (min B (src.length - s))))
              ++ d.drop (p + B) := by
        rw [writeAt, hbuf', List.append_assoc]
      have hlen1 : (d.take p ++ (((src.drop s).take B)
          ++ buf.drop (min B (src.length - s)))).length = p + B := by
        rw [List.length_append, List.length_take, hbuf']
        omega
      have hple : p + B
          ≤ (writeAt d p (((src.drop s).take B) ++ buf.drop (min B (src.length - s)))).length := by
        rw [hsplit, List.length_append, hlen1]
        omega
      have htake : (writeAt d p (((src.drop s).take B)
            ++ buf.drop (min B (src.length - s)))).take (p + B)
          = d.take p ++ (((src.drop s).take B) ++ buf.drop (min B (src.length - s))) := by
        rw [hsplit]
        exact List.take_left' hlen1
      have hdrop : ∀ k, (writeAt d p (((src.drop s).take B)
            ++ buf.drop (min B (src.length - s)))).drop (p + B + k)
          = d.drop (p + B + k) := by
        intro k
        rw [hsplit]
        have hd := @List.drop_append Nat
          (d.take p ++ (((src.drop s).take B) ++ buf.drop (min B (src.length - s))))
          (d.drop (p + B)) k
        rw [hlen1] at hd
        rw [hd, List.drop_drop]
      have key := ih (min B (src.length - s))
        (((src.drop s).take B) ++ buf.drop (min B (src.length - s)))
        (w + min B (src.length - s)) (s + min B (src.length - s)) (p + B) (i + 1)
        (writeAt d p (((src.drop s).take B) ++ buf.drop (min B (src.length - s))))
        hbuf' hple
      simp only [copyLoop, writeTrace, h, if_false, List.flatten_cons, List.length_append, hbuf']
      rw [key, htake, hdrop]
      simp [List.append_assoc]
      rw [Nat.add_assoc]

theorem copyRun_dest (src : List Nat) (B : Nat) (count : Option Nat) (fire : Nat → Bool)
    (dest0 : List Nat) :
    (copyRun src B count fire dest0).dest
      = (writeTrace src B (count.getD USIZE_MAX) 1 (List.replicate B 0) 0).flatten
          ++ dest0.drop
              ((writeTrace src B (count.getD USIZE_MAX) 1 (List.replicate B 0) 0).flatten).length := by
  have h := copyLoop_dest src B fire (count.getD USIZE_MAX) 1 (List.replicate B 0) 0 0 0 0 dest0
    (by simp) (Nat.zero_le _)
  simpa [copyRun] using h

theorem readTrace_read_zero (src : List Nat) (B : Nat) (c s : Nat) :
    readTrace src B c 0 s = [] := by
  cases c <;> simp [readTrace]

theorem readTrace_length_le (src : List Nat) (B : Nat) :
    ∀ (c read s : Nat), (readTrace src B c read s).length ≤ c := by
  intro c
  induction c with
  | zero => intro read s; simp [readTrace]
  | succ c ih =>
    intro read s
    by_cases h : read = 0
    · simp [readTrace, h]
    · simp only [readTrace, h, if_false, List.length_cons]
      exact Nat.succ_le_succ (ih _ _)

theorem readTrace_mem_le (src : List Nat) (B : Nat) :
    ∀ (c read s : Nat), ∀ x ∈ readTrace src B c read s, x ≤ B := by
  intro c
  induction c with
  | zero => intro read s x hx; simp [readTrace] at hx
  | succ c ih =>
    intro read s x hx
    by_cases h : read = 0
    · simp [readTrace, h] at hx
    · simp only [readTrace, h, if_false, List.mem_cons] at hx
      rcases hx with hx | hx
      · rw [hx]; exact Nat.min_le_left _ _
      · exact ih _ _ x hx

theorem readTrace_sum_le (src : List Nat) (B : Nat) :
    ∀ (c read s : Nat), (readTrace src B c read s).sum ≤ c * B := by
  intro c
  induction c with
  | zero => intro read s; simp [readTrace]
  | succ c ih =>
    intro read s
    by_cases h : read = 0
    · simp [readTrace, h]
    · simp only [readTrace, h, if_false, List.sum_cons, Nat.succ_mul]
      have h1 : min B (src.length - s) ≤ B := Nat.min_le_left _ _
      have h2 := ih (min B (src.length - s)) (s + min B (src.length - s))
      omega

theorem readTrace_no_zero_before_last (src : List Nat) (B : Nat) :
    ∀ (c read s : Nat), ∀ x ∈ (readTrace src B c read s).dropLast, x ≠ 0 := by
  intro c
  induction c with
  | zero => intro read s x hx; simp [readTrace] at hx
  | succ c ih =>
    intro read s x hx
    by_cases h : read = 0
    · simp [readTrace, h] at hx
    · simp only [readTrace, h, if_false] at hx
      rcases heq : readTrace src B c (min B (src.length - s))
          (s + min B (src.length - s)) with _ | ⟨a, tl⟩
      · rw [heq] at hx
        simp at hx
      · rw [heq] at hx
        rw [List.dropLast_cons₂] at hx
        rcases List.mem_cons.mp hx with hx' | hx'
        · intro hx0
          rw [hx0] at hx'
          have : min B (src.length - s) = 0 := hx'.symm
          rw [this, readTrace_read_zero] at heq
          exact List.noConfusion heq
        · rw [← heq] at hx'
          exact ih _ _ x hx'

theorem writeTrace_length_eq (src : List Nat) (B : Nat) :
    ∀ (c read : Nat) (buf : List Nat) (s : Nat),
      (writeTrace src B c read buf s).length = (readTrace src B c read s).length := by
  intro c
  induction c with
  | zero => intro read buf s; simp [writeTrace, readTrace]
  | succ c ih =>
    intro read buf s
    by_cases h : read = 0
    · simp [writeTrace, readTrace, h]
    · simp only [writeTrace, readTrace, h, if_false, List.length_cons, ih]

theorem readTrace_sum_of_fuel (src : List Nat) (B : Nat) (hB : 0 < B) :
    ∀ (c read s : Nat), read ≠ 0 → s ≤ src.length → src.length - s + 2 ≤ c →
      (readTrace src B c read s).sum = src.length - s := by
  intro c
  induction c with
  | zero => intro read s _ _ hc; omega
  | succ c ih =>
    intro read s h hs hc
    simp only [readTrace, h, if_false, List.sum_cons]
    by_cases hsl : s < src.length
    · have h1 : 1 ≤ min B (src.length - s) := by omega
      have h2 : min B (src.length - s) ≤ src.length - s := Nat.min_le_right _ _
      have h3 := ih (min B (src.length - s)) (s + min B (src.length - s))
        (by omega) (by omega) (by omega)
      rw [h3]
      omega
    · have h0 : min B (src.length - s) = 0 := by omega
      rw [h0, readTrace_read_zero]
      simp
      omega

theorem readTrace_getLast_zero (src : List Nat) (B : Nat) (hB : 0 < B) :
    ∀ (c read s : Nat), read ≠ 0 → s ≤ src.length → src.length - s + 2 ≤ c →
      (readTrace src B c read s).getLast? = some 0 := by
  intro c
  induction c with
  | zero => intro read s _ _ hc; omega
  | succ c ih =>
    intro read s h hs hc
    simp only [readTrace, h, if_false]
    by_cases hsl : s < src.length
    · have h1 : 1 ≤ min B (src.length - s) := by omega
      have h2 : min B (src.length - s) ≤ src.length - s := Nat.min_le_right _ _
      have htail := ih (min B (src.length - s)) (s + min B (src.length - s))
        (by omega) (by omega) (by omega)
      rw [List.getLast?_cons, htail]
      rfl
    · have h0 : min B (src.length - s) = 0 := by omega
      rw [h0, readTrace_read_zero]
      rfl

theorem readTrace_length_lower (src : List Nat) (B : Nat) (hB : 0 < B) :
    ∀ (c read s : Nat), read ≠ 0 → s ≤ src.length → src.length - s + 2 ≤ c →
      src.length - s + B ≤ B * (readTrace src B c read s).length := by
  intro c
  induction c with
  | zero => intro read s _ _ hc; omega
  | succ c ih =>
    intro read s h hs hc
    simp only [readTrace, h, if_false, List.length_cons, Nat.mul_succ]
    by_cases hsl : s < src.length
    · have h1 : 1 ≤ min B (src.length - s) := by omega
      have h2 : min B (src.length - s) ≤ src.length - s := Nat.min_le_right _ _
      have h3 : min B (src.length - s) ≤ B := Nat.min_le_left _ _
      have htail := ih (min B (src.length - s)) (s + min B (src.length - s))
        (by omega) (by omega) (by omega)
      generalize B * (readTrace src B c (min B (src.length - s))
        (s + min B (src.length - s))).length = t at htail ⊢
      omega
    · have h0 : min B (src.length - s) = 0 := by omega
      rw [h0, readTrace_read_zero]
      simp
      omega

theorem writeTrace_flatten_take (src : List Nat) (B : Nat) (hB : 0 < B) :
    ∀ (c read s : Nat) (buf : List Nat), buf.length = B → read ≠ 0 → s ≤ src.length →
      src.length - s + 2 ≤ c →
      ((writeTrace src B c read buf s).flatten).take (src.length - s) = src.drop s := by
  intro c
  induction c with
  | zero => intro read s buf _ _ _ hc; omega
  | succ c ih =>
    intro read s buf hbuf h hs hc
    by_cases hsl : s < src.length
    · simp only [writeTrace, h, if_false, List.flatten_cons]
      by_cases hBle : B ≤ src.length - s
      · have hmin : min B (src.length - s) = B := by omega
        rw [hmin]
        have hbd : buf.drop B = [] := List.drop_eq_nil_of_le (by omega)
        rw [hbd, List.append_nil]
        have hchunk : ((src.drop s).take B).length = B := by
          rw [List.length_take, List.length_drop]; omega
        rw [List.take_append_eq_append_take]
        have h1 : ((src.drop s).take B).take (src.length - s) = (src.drop s).take B :=
          List.take_of_length_le (by omega)
        rw [h1, hchunk]
        have hih := ih B (s + B) ((src.drop s).take B) hchunk (by omega) (by omega) (by omega)
        rw [Nat.sub_sub, hih]
        rw [← List.drop_drop, List.take_append_drop]
      · have hm : min B (src.length - s) = src.length - s := by omega
        rw [hm]
        rw [List.append_assoc]
        have hchunk2 : ((src.drop s).take B).length = src.length - s := by
          rw [List.length_take, List.length_drop]; omega
        rw [List.take_left' hchunk2]
        exact List.take_of_length_le (by rw [List.length_drop]; omega)
    · have h0 : src.length - s = 0 := by omega
      rw [h0, List.take_zero]
      symm
      exact List.drop_eq_nil_of_le (by omega)

/-- C1: the claim says every loop iteration writes to the destination exactly the
number of bytes returned by the preceding read.  The code (line 145) instead
passes the whole buffer to `write` on every iteration.  Evaluation at the
failing input: source `[1,2]`, block size 4, no count limit.  The reads return
2 and then 0 bytes, yet both writes pass the full 4-byte buffer, and the
destination ends up holding 8 bytes for a 2-byte source. -/
theorem c1_full_buffer_write_bug :
    (copyRun [1,2] 4 none noFire []).reads = [2, 0] ∧
    ((copyRun [1,2] 4 none noFire []).writes).map List.length = [4, 4] ∧
    (copyRun [1,2] 4 none noFire []).dest = [1,2,0,0,1,2,0,0] := by
  decide

/-- C3 counterexample: the claim says each flush-monitor poll reports
`total - dirty*1024`.  At total = 2000 bytes and dirty = 1 kB the code
(line 117) reports 2000 - 1*1000 = 1000, but `total - dirty*1024` is 976. -/
theorem c3_counterexample :
    flushProgress 2000 1 = some 1000 ∧ (2000 - 1 * 1024 : Nat) = 976 ∧ (1000 : Nat) ≠ 976 := by
  decide

/-- C3 amended: on every flush-monitor poll that does not underflow, the
estimated flushed total reported is `total - dirty * 1000` — the code
multiplies the parsed dirty kilobyte value by 1000, not by 1024. -/
theorem c3_flush_formula (total dirty : Nat) (h : dirty * 1000 ≤ total) :
    flushProgress total dirty = some (total - dirty * 1000) := by
  simp [flushProgress, h]

/-- C3 witness: the amended formula evaluated at total = 2000, dirty = 1. -/
theorem c3_flush_formula_witness : flushProgress 2000 1 = some 1000 :=
  c3_flush_formula 2000 1 (by decide)

/-- C5: the claim also asserts the 0/0 percentage is special-cased or defined
as 100%.  At the failing input (empty source, no count, so total = 0) the loop
behaviour matches the claim: the first read returns 0, one snapshot equal to 0
is emitted followed by the sentinel.  But the rendering has no special case:
the code computes `floor((0/0)*100)` in f32, which is NaN (modelled `none`),
not 100%. -/
theorem c5_zero_source_nan_bug :
    (copyRun [] 4 none noFire []).reads = [0] ∧
    (copyRun [] 4 none noFire []).sent = [0, 0] ∧
    (copyRun [] 4 none noFire []).written = 0 ∧
    totalExpected none 4 0 = 0 ∧
    renderPercent 0 (totalExpected none 4 0) = none ∧
    renderPercent 0 (totalExpected none 4 0) ≠ some 100 := by
  decide

/-- C7: whenever the output path exists and is a directory, `_main` prints the
abort message and exits with status 0, performing no open of the destination
(and a fortiori not modifying it): the effect trace is exactly the print
followed by `exit(0)`, with no `openTarget`. -/
theorem c7_dir_output_aborts (e d : Bool) (he : e = true) (hd : d = true) :
    driverPrelude e d = [Effect.printAbortMsg, Effect.exitProc 0] ∧
    Effect.openTarget ∉ driverPrelude e d := by
  subst he
  subst hd
  decide

/-- C7 witness: the abort path evaluated at a concrete existing directory. -/
theorem c7_dir_output_aborts_witness :
    driverPrelude true true = [Effect.printAbortMsg, Effect.exitProc 0] ∧
    Effect.openTarget ∉ driverPrelude true true :=
  c7_dir_output_aborts true true rfl rfl

/-- C9: the flush-phase subtraction `total - dirty * 1000` is unguarded `usize`
subtraction: it underflows (a Rust overflow panic, aborting the program)
exactly when `dirty * 1000` exceeds `total`, and produces a value exactly when
`dirty * 1000 ≤ total`. -/
theorem c9_flush_underflow (total dirty : Nat) :
    (flushProgress total dirty = none ↔ total < dirty * 1000) ∧
    ((flushProgress total dirty).isSome = true ↔ dirty * 1000 ≤ total) := by
  unfold flushProgress
  by_cases h : dirty * 1000 ≤ total
  all_goals simp [h]
  all_goals omega

/-- C2: for every block size B > 0 and every source, a run with no count limit
leaves the destination with the source as its first `src.length` bytes, the
final `written` counter equals the source length, and the channel traffic ends
with the final snapshot `src.length` (line 154) followed by the sentinel 0
(line 156).  The side condition keeps the source small enough that the
`usize::max_value()` block budget is never exhausted (always true physically). -/
theorem c2_full_copy_exact (B : Nat) (src dest0 : List Nat) (fire : Nat → Bool)
    (hB : 0 < B) (hL : src.length + 2 ≤ USIZE_MAX) :
    ((copyRun src B none fire dest0).dest).take src.length = src ∧
    (copyRun src B none fire dest0).written = src.length ∧
    (copyRun src B none fire dest0).sent
      = (copyRun src B none fire dest0).timedSent ++ [src.length, 0] := by
  have hrep : (List.replicate B (0 : Nat)).length = B := by simp
  have hwr : (copyRun src B none fire dest0).written = src.length := by
    show (copyLoop src B fire USIZE_MAX 1 (List.replicate B 0) 0 0 0 0 dest0).written = _
    rw [copyLoop_written]
    rw [readTrace_sum_of_fuel src B hB USIZE_MAX 1 0 (by omega) (by omega) (by omega)]
    omega
  have hdest := copyRun_dest src B none fire dest0
  simp only [Option.getD_none] at hdest
  have hflat_take :
      ((writeTrace src B USIZE_MAX 1 (List.replicate B 0) 0).flatten).take src.length = src := by
    have h := writeTrace_flatten_take src B hB USIZE_MAX 1 0 (List.replicate B 0) hrep
      (by omega) (by omega) (by omega)
    simpa using h
  have hlen_ge :
      src.length ≤ ((writeTrace src B USIZE_MAX 1 (List.replicate B 0) 0).flatten).length := by
    rw [writeTrace_flatten_length src B USIZE_MAX 1 (List.replicate B 0) 0 hrep]
    rw [writeTrace_length_eq]
    have h := readTrace_length_lower src B hB USIZE_MAX 1 0 (by omega) (by omega) (by omega)
    generalize B * (readTrace src B USIZE_MAX 1 0).length = t at h ⊢
    omega
  have htake : ((copyRun src B none fire dest0).dest).take src.length = src := by
    rw [hdest, List.take_append_eq_append_take, hflat_take]
    have h0 : src.length
        - ((writeTrace src B USIZE_MAX 1 (List.replicate B 0) 0).flatten).length = 0 := by
      omega
    rw [h0, List.take_zero, List.append_nil]
  refine ⟨htake, hwr, ?_⟩
  simp only [CopyOut.sent, hwr]

/-- C2 witness: source `[5,6,7]`, block size 2, empty initial destination. -/
theorem c2_full_copy_exact_witness :
    ((copyRun [5,6,7] 2 none noFire []).dest).take 3 = [5,6,7] ∧
    (copyRun [5,6,7] 2 none noFire []).written = 3 := by
  have h := c2_full_copy_exact 2 [5,6,7] [] noFire (by decide) (by decide)
  exact ⟨h.1, h.2.1⟩

/-- C4: with a count limit C, the loop performs at most C reads, each read
returns at most B bytes, the total bytes read from the source is at most C*B,
and a zero (EOF) read can only be the last read: every read before the last
one is nonzero. -/
theorem c4_count_limit (C B : Nat) (src : List Nat) (fire : Nat → Bool) (dest0 : List Nat) :
    (copyRun src B (some C) fire dest0).reads.sum ≤ C * B ∧
    (copyRun src B (some C) fire dest0).reads.length ≤ C ∧
    (∀ x ∈ (copyRun src B (some C) fire dest0).reads, x ≤ B) ∧
    (∀ x ∈ ((copyRun src B (some C) fire dest0).reads).dropLast, x ≠ 0) := by
  have hr : (copyRun src B (some C) fire dest0).reads = readTrace src B C 1 0 := by
    show (copyLoop src B fire C 1 (List.replicate B 0) 0 0 0 0 dest0).reads = _
    rw [copyLoop_reads]
  rw [hr]
  exact ⟨readTrace_sum_le src B C 1 0, readTrace_length_le src B C 1 0,
    readTrace_mem_le src B C 1 0, readTrace_no_zero_before_last src B C 1 0⟩

/-- C4 witness: count 2, block size 2, a 5-byte source: the copy stops after
exactly 2 reads of 2 bytes. -/
theorem c4_count_limit_witness :
    (copyRun [9,9,9,9,9] 2 (some 2) noFire []).reads.sum ≤ 2 * 2 ∧
    (copyRun [9,9,9,9,9] 2 (some 2) noFire []).reads.length ≤ 2 ∧
    (2 : Nat) ≤ 2 ∧ (2 : Nat) ≠ 0 := by
  have h := c4_count_limit 2 2 [9,9,9,9,9] noFire []
  refine ⟨h.1, h.2.1, h.2.2.1 2 ?_, h.2.2.2 2 ?_⟩
  · decide
  · decide

/-- C6: running the complete copy twice against the same source/destination
pair leaves the destination exactly as one run does.  Each run writes the same
byte sequence from offset zero (the write trace does not depend on the
destination's prior content) and never appends. -/
theorem c6_idempotent (src : List Nat) (B : Nat) (count : Option Nat) (fire : Nat → Bool)
    (dest0 : List Nat) :
    (copyRun src B count fire ((copyRun src B count fire dest0).dest)).dest
      = (copyRun src B count fire dest0).dest := by
  simp only [copyRun_dest]
  rw [List.drop_left]

/-- C8: with no count limit, the iteration whose read returns 0 (EOF) still
performs a write: there are as many writes as reads, the last read is 0, every
write passes the full B-byte buffer, so the destination receives strictly more
bytes than the source length, while the `written` counter (which sums read
return values and ignores write return values) equals the source length. -/
theorem c8_eof_extra_write (B : Nat) (src dest0 : List Nat) (fire : Nat → Bool)
    (hB : 0 < B) (hL : src.length + 2 ≤ USIZE_MAX) :
    (copyRun src B none fire dest0).reads.getLast? = some 0 ∧
    (copyRun src B none fire dest0).writes.length
      = (copyRun src B none fire dest0).reads.length ∧
    (∀ w ∈ (copyRun src B none fire dest0).writes, w.length = B) ∧
    src.length < (((copyRun src B none fire dest0).writes).flatten).length ∧
    (copyRun src B none fire dest0).written = src.length := by
  have hrep : (List.replicate B (0 : Nat)).length = B := by simp
  have hr : (copyRun src B none fire dest0).reads = readTrace src B USIZE_MAX 1 0 := by
    show (copyLoop src B fire USIZE_MAX 1 (List.replicate B 0) 0 0 0 0 dest0).reads = _
    rw [copyLoop_reads]
  have hw : (copyRun src B none fire dest0).writes
      = writeTrace src B USIZE_MAX 1 (List.replicate B 0) 0 := by
    show (copyLoop src B fire USIZE_MAX 1 (List.replicate B 0) 0 0 0 0 dest0).writes = _
    rw [copyLoop_writes]
  refine ⟨?_, ?_, ?_, ?_, ?_⟩
  · rw [hr]
    exact readTrace_getLast_zero src B hB USIZE_MAX 1 0 (by omega) (by omega) (by omega)
  · rw [hr, hw, writeTrace_length_eq]
  · rw [hw]
    exact writeTrace_mem_length src B USIZE_MAX 1 (List.replicate B 0) 0 hrep
  · rw [hw, writeTrace_flatten_length src B USIZE_MAX 1 (List.replicate B 0) 0 hrep]
    rw [writeTrace_length_eq]
    have h := readTrace_length_lower src B hB USIZE_MAX 1 0 (by omega) (by omega) (by omega)
    generalize B * (readTrace src B USIZE_MAX 1 0).length = t at h ⊢
    omega
  · show (copyLoop src B fire USIZE_MAX 1 (List.replicate B 0) 0 0 0 0 dest0).written = _
    rw [copyLoop_written]
    rw [readTrace_sum_of_fuel src B hB USIZE_MAX 1 0 (by omega) (by omega) (by omega)]
    omega

/-- C8 witness: a 1-byte source with block size 2: reads are [1, 0], both
iterations write 2 bytes, 4 bytes reach the destination, counter reads 1. -/
theorem c8_eof_extra_write_witness :
    (copyRun [7] 2 none noFire []).reads.getLast? = some 0 ∧
    (copyRun [7] 2 none noFire []).writes.length = (copyRun [7] 2 none noFire []).reads.length ∧
    (1 : Nat) < (((copyRun [7] 2 none noFire []).writes).flatten).length ∧
    (copyRun [7] 2 none noFire []).written = 1 := by
  have h := c8_eof_extra_write 2 [7] [] noFire (by decide) (by decide)
  exact ⟨h.1, h.2.1, h.2.2.2.1, h.2.2.2.2⟩

/-- C10: the destination is opened write + create without truncation, so all
destination bytes at or beyond the region the run writes (B bytes per write)
are exactly the pre-existing destination's bytes at those offsets. -/
theorem c10_stale_tail_preserved (src : List Nat) (B : Nat) (count : Option Nat)
    (fire : Nat → Bool) (dest0 : List Nat) :
    ((copyRun src B count fire dest0).dest).drop
        (B * (copyRun src B count fire dest0).writes.length)
      = dest0.drop (B * (copyRun src B count fire dest0).writes.length) := by
  have hw : (copyRun src B count fire dest0).writes
      = writeTrace src B (count.getD USIZE_MAX) 1 (List.replicate B 0) 0 := by
    show (copyLoop src B fire (count.getD USIZE_MAX) 1 (List.replicate B 0) 0 0 0 0 dest0).writes = _
    rw [copyLoop_writes]
  have hfl : ((writeTrace src B (count.getD USIZE_MAX) 1 (List.replicate B 0) 0).flatten).length
      = B * (writeTrace src B (count.getD USIZE_MAX) 1 (List.replicate B 0) 0).length :=
    writeTrace_flatten_length src B _ 1 (List.replicate B 0) 0 (by simp)
  rw [copyRun_dest, hw, ← hfl, List.drop_left]
